import Mathlib

/-!
Shallow embedding of the core audio-to-spectrum pipeline of the
terminal music visualizer (sources `src/audio.rs`, `src/fft.rs`).

Numeric conventions: the program's `f32` values are modelled as elements
of a linear ordered field `K` (instantiated at `ℝ` for transcendental
parts and at `ℚ` when a witness must compute); `usize` is `ℕ`.
Slices and `Vec`s are modelled as `List`s.
-/

namespace MusicViz

/-! ## Sample ring buffer (`src/audio.rs`) -/

/-- Modelled from the spec: the SPSC sample queue created by
`create_ring_buffer` in `src/audio.rs` is the external `ringbuf` crate's
`HeapRb`, whose implementation is not part of this repository's sources.
Per the spec (§3, §4.1): a fixed-capacity FIFO of samples; `push_slice`
appends as many leading samples as fit in the free space, never
overwriting buffered data, and returns the written count
`min(requested, free_space)`; `pop_slice` removes up to `n` of the
oldest samples in arrival order.  The queue content is the list of
buffered samples, oldest first. -/
structure RingBuffer (K : Type) where
  capacity : ℕ
  data : List K

/-- Modelled from the spec: `ringbuf` `push_slice` (drop-newest-excess). -/
def RingBuffer.push_slice {K : Type} (rb : RingBuffer K) (samples : List K) :
    RingBuffer K × ℕ :=
  let free := rb.capacity - rb.data.length
  let written := min samples.length free
  ({ rb with data := rb.data ++ samples.take written }, written)

/-- Modelled from the spec: `ringbuf` `pop_slice` (pop up to `n` oldest). -/
def RingBuffer.pop_slice {K : Type} (rb : RingBuffer K) (n : ℕ) :
    RingBuffer K × List K :=
  ({ rb with data := rb.data.drop n }, rb.data.take n)

/-- `RING_BUFFER_CAPACITY` from `src/audio.rs`. -/
def RING_BUFFER_CAPACITY : ℕ := 8192

/-- `create_ring_buffer` from `src/audio.rs`: an empty ring buffer of
capacity `RING_BUFFER_CAPACITY`. -/
def create_ring_buffer {K : Type} : RingBuffer K :=
  { capacity := RING_BUFFER_CAPACITY, data := [] }

/-! ## Channel mixdown (`AudioProcessor::audio_callback`, `src/audio.rs`) -/

/-- Rust `slice::chunks_exact(c)`: the maximal list of consecutive
length-`c` chunks; a trailing remainder shorter than `c` is dropped. -/
def chunksExact {α : Type} (c : ℕ) (l : List α) : List (List α) :=
  if _h : 0 < c ∧ c ≤ l.length then
    l.take c :: chunksExact c (l.drop c)
  else []
termination_by l.length
decreasing_by
  simp only [List.length_drop]
  omega

/-- The channel-mixdown part of `AudioProcessor::audio_callback`
(`src/audio.rs` lines 186-198): mono input is passed through unchanged,
multi-channel input is collapsed frame-by-frame to the arithmetic mean
of the channels via `chunks_exact`. -/
def mixdown {K : Type} [LinearOrderedField K] (data : List K) (channels : ℕ) :
    List K :=
  if channels = 1 then data
  else (chunksExact channels data).map (fun frame => frame.sum / (channels : K))

/-- `AudioProcessor::audio_callback` (`src/audio.rs` lines 175-205):
mix the interleaved block down to mono and push it into the ring
buffer, returning the new buffer state and the written count. -/
def audio_callback {K : Type} [LinearOrderedField K] (data : List K)
    (producer : RingBuffer K) (channels : ℕ) : RingBuffer K × ℕ :=
  producer.push_slice (mixdown data channels)

/-! ## Temporal smoother (`SpectrumSmoother`, `src/fft.rs`) -/

/-- `SpectrumSmoother` state (`src/fft.rs` lines 240-245). -/
structure SpectrumSmoother (K : Type) where
  smoothed_values : List K
  peak_values : List K
  peak_decay_rate : K
  smoothing_factor : K

/-- `SpectrumSmoother::new` (`src/fft.rs` lines 254-264): zeroed state,
peak decay `0.95`, smoothing factor clamped into `[0, 1]`. -/
def SpectrumSmoother.new {K : Type} [LinearOrderedField K] (num_bands : ℕ)
    (smoothing_factor : K) : SpectrumSmoother K :=
  { smoothed_values := List.replicate num_bands 0
    peak_values := List.replicate num_bands 0
    peak_decay_rate := 0.95
    smoothing_factor := min (max smoothing_factor 0) 1 }

/-- `SpectrumSmoother::smooth` (`src/fft.rs` lines 271-304): on a length
mismatch return the previous smoothed values without any update;
otherwise apply the exponential moving average per band, then update
each band's peak (new peak if the new smoothed value strictly exceeds
the old peak, else decay the old peak).  Returns the new state together
with the returned slice. -/
def SpectrumSmoother.smooth {K : Type} [LinearOrderedField K]
    (s : SpectrumSmoother K) (new_values : List K) :
    SpectrumSmoother K × List K :=
  if new_values.length ≠ s.smoothed_values.length then
    (s, s.smoothed_values)
  else
    let sm := List.zipWith
      (fun nv ov => s.smoothing_factor * nv + (1 - s.smoothing_factor) * ov)
      new_values s.smoothed_values
    let pk := List.zipWith
      (fun cv cp => if cv > cp then cv else cp * s.peak_decay_rate)
      sm s.peak_values
    ({ s with smoothed_values := sm, peak_values := pk }, sm)

/-! ## FFT engine (`FftEngine`, `src/fft.rs`) -/

/-- `FFT_SIZE` from `src/fft.rs`. -/
def FFT_SIZE : ℕ := 2048

/-- The mutable state of `FftEngine` (`src/fft.rs` lines 16-24) that the
sample-flow claims depend on: the FFT size and the overlap carry-over
buffer (`overlap_buffer`, initially empty as in `FftEngine::new`).  The
window table and the complex scratch buffers only affect the numeric FFT
output, which is modelled separately by `compute_magnitudes`. -/
structure FftEngine (K : Type) where
  fft_size : ℕ
  overlap_buffer : List K

/-- `FftEngine::new` (`src/fft.rs` lines 28-43): empty overlap buffer. -/
def FftEngine.new {K : Type} (fft_size : ℕ) : FftEngine K :=
  { fft_size := fft_size, overlap_buffer := [] }

/-- The sample-flow part of `FftEngine::process_block` (`src/fft.rs`
lines 55-97): pop up to `hop_size = fft_size / 2` samples from the ring
buffer; if fewer were available return `none` (the popped samples are
already consumed); otherwise assemble the analysis frame from the
retained overlap (or zeros on the first block) followed by the new
samples, and retain the frame's second half as the next overlap.
Returns the assembled frame (to which the engine then applies the Hann
window and the FFT), the new engine state, and the new ring buffer. -/
def FftEngine.process_block {K : Type} [LinearOrderedField K]
    (eng : FftEngine K) (ring : RingBuffer K) :
    Option (List K) × FftEngine K × RingBuffer K :=
  let hop_size := eng.fft_size / 2
  let popped := ring.pop_slice hop_size
  let read_count := popped.2.length
  if read_count < hop_size then
    (none, eng, popped.1)
  else
    let first_half :=
      if eng.overlap_buffer.length = hop_size then eng.overlap_buffer
      else List.replicate hop_size 0
    let full_samples := first_half ++ popped.2
    ( some full_samples,
      { eng with overlap_buffer := full_samples.drop hop_size },
      popped.1 )

/-- `FftEngine::compute_magnitudes` (`src/fft.rs` lines 108-123): for
each bin `i` in `0..=fft_size/2`, the magnitude of the `i`-th complex
FFT output converted to decibels, `20 * log10(sqrt(re² + im²) + 1e-10)`.
The complex buffer is a list of (re, im) pairs. -/
noncomputable def compute_magnitudes (fft_size : ℕ) (buf : List (ℝ × ℝ)) :
    List ℝ :=
  (List.range (fft_size / 2 + 1)).map (fun i =>
    let c := buf.getD i (0, 0)
    let magnitude := Real.sqrt (c.1 * c.1 + c.2 * c.2)
    20 * Real.logb 10 (magnitude + 1e-10))

/-! ## Frequency binner (`FrequencyBinner`, `src/fft.rs`) -/

/-- `FrequencyBand` (`src/fft.rs` lines 128-132). -/
structure FrequencyBand where
  start_bin : ℕ
  end_bin : ℕ
  center_freq : ℝ

instance : Inhabited FrequencyBand := ⟨0, 0, 0⟩

/-- `FrequencyBinner::calculate_logarithmic_bands` (`src/fft.rs` lines
162-195): logarithmically spaced bands between `f_min` and `f_max`,
converted to FFT bin indices with `floor`/`ceil`, the start clamped to
`fft_size / 2`, the end clamped to `fft_size / 2 + 1` and forced above
the clamped start.  `f32::floor as usize` and `f32::ceil as usize` are
modelled by `Nat.floor` / `Nat.ceil` (both send negative reals to 0,
matching Rust's saturating float-to-`usize` cast). -/
noncomputable def calculate_logarithmic_bands (num_bands : ℕ)
    (f_min f_max : ℝ) (fft_size : ℕ) (sample_rate : ℝ) :
    List FrequencyBand :=
  let r : ℝ := (f_max / f_min) ^ ((1 : ℝ) / (num_bands : ℝ))
  (List.range num_bands).map (fun (i : ℕ) =>
    let freq_start := f_min * r ^ ((i : ℝ))
    let freq_end := f_min * r ^ (((i + 1 : ℕ) : ℝ))
    let center_freq := (freq_start + freq_end) / 2
    let start_bin := ⌊(freq_start * (fft_size : ℝ)) / sample_rate⌋₊
    let end_bin := ⌈(freq_end * (fft_size : ℝ)) / sample_rate⌉₊
    let start_bin := min start_bin (fft_size / 2)
    let end_bin := max (min end_bin (fft_size / 2 + 1)) (start_bin + 1)
    { start_bin := start_bin, end_bin := end_bin, center_freq := center_freq })

/-- `FrequencyBinner` (`src/fft.rs` lines 135-139). -/
structure FrequencyBinner where
  bands : List FrequencyBand
  fft_size : ℕ
  sample_rate : ℝ

/-- `FrequencyBinner::new` (`src/fft.rs` lines 144-158): bands over the
fixed range 20 Hz to 20 kHz. -/
noncomputable def FrequencyBinner.new (num_bands fft_size : ℕ)
    (sample_rate : ℝ) : FrequencyBinner :=
  { bands := calculate_logarithmic_bands num_bands 20 20000 fft_size sample_rate
    fft_size := fft_size
    sample_rate := sample_rate }

/-- `FrequencyBinner::bin_spectrum` (`src/fft.rs` lines 199-224): each
band is the arithmetic mean of the magnitudes of its in-range bins
(`start_bin ≤ bin < end_bin` and `bin < len(magnitudes)`); a band with
no in-range bin yields `0`. -/
def binBand {K : Type} [LinearOrderedField K] (fft_magnitudes : List K)
    (band : FrequencyBand) : K :=
  let idxs := (List.range' band.start_bin (band.end_bin - band.start_bin)).filter
    (fun bin_idx => bin_idx < fft_magnitudes.length)
  if 0 < idxs.length then
    (idxs.map (fun bin_idx => fft_magnitudes.getD bin_idx 0)).sum / (idxs.length : K)
  else 0

/-- `FrequencyBinner::bin_spectrum` (`src/fft.rs` lines 199-224). -/
def FrequencyBinner.bin_spectrum {K : Type} [LinearOrderedField K]
    (binner : FrequencyBinner) (fft_magnitudes : List K) : List K :=
  binner.bands.map (binBand fft_magnitudes)

/-! ## Shared spectrum and the processing loop (`src/fft.rs`) -/

/-- `SpectrumData` (`src/fft.rs` lines 342-345); the `Instant` timestamp
is modelled as an abstract tick counter. -/
structure SpectrumData (K : Type) where
  bands : List K
  timestamp : ℕ

/-- `SpectrumData::new` (`src/fft.rs` lines 349-354). -/
def SpectrumData.new {K : Type} [LinearOrderedField K] (num_bands : ℕ)
    (now : ℕ) : SpectrumData K :=
  { bands := List.replicate num_bands 0, timestamp := now }

/-- One iteration of the publishing part of `FftProcessor::run`
(`src/fft.rs` lines 400-424): when `process_block` produced magnitudes,
bin them and replace the published snapshot wholesale with the binned
bands and the current timestamp; when it produced nothing, leave the
snapshot untouched (the loop only sleeps). -/
def run_tick {K : Type} [LinearOrderedField K] (binner : FrequencyBinner)
    (spectrum : SpectrumData K) (result : Option (List K)) (now : ℕ) :
    SpectrumData K :=
  match result with
  | some fft_magnitudes =>
      { bands := binner.bin_spectrum fft_magnitudes, timestamp := now }
  | none => spectrum

/-! ## Spec-side reference definitions (for refinement comparison) -/

/-- Modelled from the spec's words (§4.5), for comparison with the code:
the spec's per-band peak rule is non-strict — "if `smoothed ≥ peak_prev`
then `peak = smoothed`, else `peak = peak_prev * peak_decay`". -/
def specPeakUpdate {K : Type} [LinearOrderedField K]
    (peak_decay smoothed peak_prev : K) : K :=
  if smoothed ≥ peak_prev then smoothed else peak_prev * peak_decay

/-- Modelled from the spec's words (§4.6), for comparison with
`run_tick`: the spec's per-tick pipeline is Analyzer → Binner →
Smoother → Publisher, publishing the smoothed bands. -/
def spec_tick {K : Type} [LinearOrderedField K] (binner : FrequencyBinner)
    (smoother : SpectrumSmoother K) (spectrum : SpectrumData K)
    (result : Option (List K)) (now : ℕ) :
    SpectrumData K × SpectrumSmoother K :=
  match result with
  | some fft_magnitudes =>
      let binned := binner.bin_spectrum fft_magnitudes
      let s := smoother.smooth binned
      ({ bands := s.2, timestamp := now }, s.1)
  | none => (spectrum, smoother)

/-- The claim's contiguity property for a band list: each band's
`end_bin` equals the next band's `start_bin` in construction order. -/
def bandsContiguous (bands : List FrequencyBand) : Prop :=
  ∀ k, k + 1 < bands.length →
    (bands.getD k default).end_bin = (bands.getD (k + 1) default).start_bin

/-- The claim's coverage property for a band list: every bin in
`[0, halfN]` lies inside some band. -/
def bandsCover (bands : List FrequencyBand) (halfN : ℕ) : Prop :=
  ∀ bin, bin ≤ halfN → ∃ b ∈ bands, b.start_bin ≤ bin ∧ bin < b.end_bin

/-! ## Helper lemmas -/

theorem getD_zipWith {α β γ : Type} (f : α → β → γ) (l₁ : List α)
    (l₂ : List β) (i : ℕ) (d₁ : α) (d₂ : β) (d₃ : γ)
    (h₁ : i < l₁.length) (h₂ : i < l₂.length) :
    (List.zipWith f l₁ l₂).getD i d₃ = f (l₁.getD i d₁) (l₂.getD i d₂) := by
  rw [List.getD_eq_getElem?_getD, List.getElem?_zipWith',
    List.getElem?_eq_getElem h₁, List.getElem?_eq_getElem h₂,
    List.getD_eq_getElem?_getD, List.getD_eq_getElem?_getD,
    List.getElem?_eq_getElem h₁, List.getElem?_eq_getElem h₂]
  rfl

theorem getD_map_range {β : Type} (f : ℕ → β) (n i : ℕ) (d : β)
    (h : i < n) : ((List.range n).map f).getD i d = f i := by
  rw [List.getD_eq_getElem?_getD, List.getElem?_map, List.getElem?_range h]
  rfl

theorem chunksExact_length {α : Type} (c : ℕ) (hc : 0 < c) (l : List α) :
    (chunksExact c l).length = l.length / c := by
  suffices H : ∀ n (l : List α), l.length ≤ n →
      (chunksExact c l).length = l.length / c from H l.length l le_rfl
  intro n
  induction n with
  | zero =>
    intro l hl
    rw [chunksExact, dif_neg (by omega)]
    have h0 : l.length = 0 := by omega
    rw [h0, Nat.zero_div]
    rfl
  | succ n ih =>
    intro l hl
    rw [chunksExact]
    split
    case isTrue h =>
      simp only [List.length_cons]
      rw [ih (l.drop c) (by rw [List.length_drop]; omega)]
      rw [List.length_drop, Nat.div_eq_sub_div hc h.2]
    case isFalse h =>
      have hlt : l.length < c := by
        rcases Nat.lt_or_ge l.length c with h' | h'
        · exact h'
        · exact absurd ⟨hc, h'⟩ h
      simp only [List.length_nil]
      rw [Nat.div_eq_of_lt hlt]

theorem chunksExact_getElem? {α : Type} (c : ℕ) (hc : 0 < c) (l : List α)
    (j : ℕ) (hj : j < l.length / c) :
    (chunksExact c l)[j]? = some ((l.drop (j * c)).take c) := by
  induction j generalizing l with
  | zero =>
    have hcl : c ≤ l.length := by
      by_contra h
      rw [Nat.div_eq_of_lt (by omega)] at hj
      omega
    rw [chunksExact, dif_pos ⟨hc, hcl⟩]
    simp
  | succ j ih =>
    have hcl : c ≤ l.length := by
      by_contra h
      rw [Nat.div_eq_of_lt (by omega)] at hj
      omega
    rw [chunksExact, dif_pos ⟨hc, hcl⟩, List.getElem?_cons_succ]
    rw [ih (l.drop c) ?_]
    · rw [List.drop_drop]
      have hjc : (j + 1) * c = c + j * c := by ring
      rw [hjc]
    · rw [List.length_drop]
      rw [Nat.div_eq_sub_div hc hcl] at hj
      omega

theorem sum_take_one_drop {K : Type} [LinearOrderedField K] (l : List K)
    (j : ℕ) (hj : j < l.length) :
    ((l.drop j).take 1).sum = l.getD j 0 := by
  rw [List.drop_eq_getElem_cons hj, List.take_succ_cons, List.take_zero,
    List.sum_cons, List.sum_nil, add_zero,
    List.getD_eq_getElem?_getD, List.getElem?_eq_getElem hj]
  rfl

/-! ## Claim theorems -/

/-- **C7.** For every call to `SpectrumSmoother::smooth` with an input
whose length differs from the band count, the smoother performs no
state update at all and returns the previous smoothed values; it never
panics on such input. -/
theorem smooth_mismatch_no_update {K : Type} [LinearOrderedField K]
    (s : SpectrumSmoother K) (new_values : List K)
    (h : new_values.length ≠ s.smoothed_values.length) :
    s.smooth new_values = (s, s.smoothed_values) := by
  unfold SpectrumSmoother.smooth
  rw [if_pos h]

theorem smooth_mismatch_no_update_witness :
    (SpectrumSmoother.new 2 (0.7 : ℚ)).smooth [5]
      = (SpectrumSmoother.new 2 (0.7 : ℚ),
         (SpectrumSmoother.new 2 (0.7 : ℚ)).smoothed_values) :=
  smooth_mismatch_no_update _ _ (by decide)

/-- **C8.** Ring buffer FIFO behaviour: pushing at most capacity samples
into the empty buffer created by `create_ring_buffer` and then popping
returns exactly those samples in original order; every push returns
`written_count = min(requested, free_space)`; samples beyond free space
are dropped and the already-buffered data stays in place, in order. -/
theorem ring_buffer_fifo {K : Type} :
    (∀ samples : List K, samples.length ≤ RING_BUFFER_CAPACITY →
      ((create_ring_buffer (K := K)).push_slice samples).2 = samples.length ∧
      (((create_ring_buffer (K := K)).push_slice samples).1.pop_slice
          samples.length).2 = samples) ∧
    (∀ (rb : RingBuffer K) (samples : List K),
      (rb.push_slice samples).2
        = min samples.length (rb.capacity - rb.data.length)) ∧
    (∀ (rb : RingBuffer K) (samples : List K),
      (rb.push_slice samples).1.data
        = rb.data ++ samples.take ((rb.push_slice samples).2)) := by
  refine ⟨?_, fun rb samples => rfl, fun rb samples => rfl⟩
  intro samples h
  have hw : min samples.length (RING_BUFFER_CAPACITY - 0) = samples.length := by
    omega
  constructor
  · exact hw
  · show (([] : List K)
        ++ samples.take (min samples.length (RING_BUFFER_CAPACITY - 0))).take
          samples.length = samples
    rw [List.nil_append, hw, List.take_length, List.take_length]

theorem ring_buffer_fifo_witness :
    ((create_ring_buffer (K := ℚ)).push_slice [1, 2, 3, 4, 5]).2
        = ([1, 2, 3, 4, 5] : List ℚ).length ∧
    (((create_ring_buffer (K := ℚ)).push_slice [1, 2, 3, 4, 5]).1.pop_slice
        ([1, 2, 3, 4, 5] : List ℚ).length).2 = [1, 2, 3, 4, 5] :=
  (ring_buffer_fifo (K := ℚ)).1 [1, 2, 3, 4, 5] (by decide)

/-- **C10.** When fewer than `hop_size = 1024` samples are available,
`process_block` returns no result, but the available samples are still
consumed from the ring buffer (which is left empty), while the engine
state (the overlap buffer) is unchanged. -/
theorem process_block_insufficient {K : Type} [LinearOrderedField K]
    (eng : FftEngine K) (ring : RingBuffer K)
    (hsz : eng.fft_size = FFT_SIZE) (hlen : ring.data.length < 1024) :
    (eng.process_block ring).1 = none ∧
    (eng.process_block ring).2.1 = eng ∧
    (eng.process_block ring).2.2.data = [] := by
  have hhop : eng.fft_size / 2 = 1024 := by simp [hsz, FFT_SIZE]
  have hread : (ring.data.take 1024).length < 1024 := by
    rw [List.length_take]
    omega
  have hdrop : ring.data.drop 1024 = [] := List.drop_eq_nil_of_le (by omega)
  simp only [FftEngine.process_block, RingBuffer.pop_slice, hhop,
    if_pos hread, hdrop]
  exact ⟨trivial, trivial, trivial⟩

theorem process_block_insufficient_witness :
    ((FftEngine.new (K := ℚ) FFT_SIZE).process_block ⟨8192, [1, 2, 3]⟩).1 = none ∧
    ((FftEngine.new (K := ℚ) FFT_SIZE).process_block ⟨8192, [1, 2, 3]⟩).2.1
      = FftEngine.new FFT_SIZE ∧
    ((FftEngine.new (K := ℚ) FFT_SIZE).process_block ⟨8192, [1, 2, 3]⟩).2.2.data
      = [] :=
  process_block_insufficient _ _ rfl (by decide)

/-- **C4.** When at least `hop_size = 1024` samples are available, the
analysis frame is the retained overlap buffer (or 1024 zeros on the
first cycle) followed by the 1024 newly popped samples, and afterwards
the overlap buffer holds exactly the second (new-sample) half of that
frame, of length 1024 — so consecutive frames overlap by 50%. -/
theorem process_block_overlap {K : Type} [LinearOrderedField K]
    (eng : FftEngine K) (ring : RingBuffer K)
    (hsz : eng.fft_size = FFT_SIZE) (hlen : 1024 ≤ ring.data.length) :
    (eng.process_block ring).1
      = some ((if eng.overlap_buffer.length = 1024 then eng.overlap_buffer
               else List.replicate 1024 0) ++ ring.data.take 1024) ∧
    (eng.process_block ring).2.1.overlap_buffer
      = ((if eng.overlap_buffer.length = 1024 then eng.overlap_buffer
          else List.replicate 1024 0) ++ ring.data.take 1024).drop 1024 ∧
    ((if eng.overlap_buffer.length = 1024 then eng.overlap_buffer
      else List.replicate 1024 0) ++ ring.data.take 1024).drop 1024
      = ring.data.take 1024 ∧
    (eng.process_block ring).2.1.overlap_buffer.length = 1024 := by
  have hhop : eng.fft_size / 2 = 1024 := by simp [hsz, FFT_SIZE]
  have hread : ¬ (ring.data.take 1024).length < 1024 := by
    rw [List.length_take]
    omega
  have hhalf : (if eng.overlap_buffer.length = 1024 then eng.overlap_buffer
      else List.replicate 1024 (0 : K)).length = 1024 := by
    split
    · assumption
    · rw [List.length_replicate]
  have hdrop : ((if eng.overlap_buffer.length = 1024 then eng.overlap_buffer
      else List.replicate 1024 (0 : K)) ++ ring.data.take 1024).drop 1024
      = ring.data.take 1024 := List.drop_left' hhalf
  have htk : (ring.data.take 1024).length = 1024 := by
    rw [List.length_take]
    omega
  refine ⟨?_, ?_, hdrop, ?_⟩
  all_goals simp only [FftEngine.process_block, RingBuffer.pop_slice, hhop,
    if_neg hread, hdrop]
  exact htk

theorem process_block_overlap_witness :
    ((FftEngine.new (K := ℚ) FFT_SIZE).process_block
        ⟨8192, List.replicate 1024 1⟩).2.1.overlap_buffer
      = List.replicate 1024 1 := by
  have h := process_block_overlap (FftEngine.new (K := ℚ) FFT_SIZE)
    ⟨8192, List.replicate 1024 1⟩ rfl
    (by show 1024 ≤ (List.replicate 1024 (1 : ℚ)).length
        rw [List.length_replicate])
  rw [h.2.1, h.2.2.1]
  show (List.replicate 1024 (1 : ℚ)).take 1024 = List.replicate 1024 1
  rw [List.take_replicate, Nat.min_self]

/-- **C5.** For every interleaved input frame and channel count `c ≥ 1`,
the channel mixdown produces a mono frame of length `⌊len/c⌋` whose
`j`-th sample is the arithmetic mean of the `c` samples of frame `j`;
single-channel input passes through unchanged; input whose length is not
divisible by `c` is truncated to the largest valid prefix; and the
2-channel frame `[[1, -1], [2, 0]]` yields mono `[0, 1]`. -/
theorem mixdown_correct {K : Type} [LinearOrderedField K] (data : List K)
    (channels : ℕ) (hc : 1 ≤ channels) :
    (mixdown data channels).length = data.length / channels ∧
    (∀ j, j < data.length / channels →
      (mixdown data channels).getD j 0
        = ((data.drop (j * channels)).take channels).sum / (channels : K)) ∧
    (channels = 1 → mixdown data channels = data) ∧
    mixdown [(1 : K), -1, 2, 0] 2 = [0, 1] := by
  have hex : mixdown [(1 : K), -1, 2, 0] 2 = [0, 1] := by
    have e1 : chunksExact 2 [(1 : K), -1, 2, 0] = [[1, -1], [2, 0]] := by
      simp [chunksExact]
    rw [mixdown, if_neg (by omega), e1]
    norm_num
  by_cases h1 : channels = 1
  · subst h1
    refine ⟨by simp [mixdown, Nat.div_one], ?_, fun _ => by simp [mixdown], hex⟩
    intro j hj
    rw [Nat.div_one] at hj
    have hmd : mixdown data 1 = data := by simp [mixdown]
    rw [hmd, mul_one, Nat.cast_one, div_one, sum_take_one_drop data j hj]
  · have hc0 : 0 < channels := hc
    refine ⟨?_, ?_, fun h => absurd h h1, hex⟩
    · rw [mixdown, if_neg h1, List.length_map, chunksExact_length channels hc0]
    · intro j hj
      rw [mixdown, if_neg h1, List.getD_eq_getElem?_getD, List.getElem?_map,
        chunksExact_getElem? channels hc0 data j hj]
      rfl

theorem mixdown_correct_witness : mixdown [(1 : ℚ), -1, 2, 0] 2 = [0, 1] :=
  (mixdown_correct [(1 : ℚ), -1, 2, 0] 2 (by decide)).2.2.2

/-- **C6 (amended).** For every call to `smooth` whose input length
equals the band count, each band's new smoothed value is
`α*new + (1-α)*previous`, and each band's peak becomes the new smoothed
value when it **strictly** exceeds the previous peak, and otherwise
`previous_peak * peak_decay` (the code uses `>`, not the spec's `≥`:
on equality the peak is decayed, not held). -/
theorem smooth_update {K : Type} [LinearOrderedField K]
    (s : SpectrumSmoother K) (new_values : List K)
    (hlen : new_values.length = s.smoothed_values.length)
    (hp : s.peak_values.length = s.smoothed_values.length)
    (i : ℕ) (hi : i < new_values.length) :
    (s.smooth new_values).1.smoothed_values.getD i 0
      = s.smoothing_factor * new_values.getD i 0
        + (1 - s.smoothing_factor) * s.smoothed_values.getD i 0 ∧
    (s.smooth new_values).1.peak_values.getD i 0
      = (if s.smoothing_factor * new_values.getD i 0
              + (1 - s.smoothing_factor) * s.smoothed_values.getD i 0
            > s.peak_values.getD i 0
         then s.smoothing_factor * new_values.getD i 0
              + (1 - s.smoothing_factor) * s.smoothed_values.getD i 0
         else s.peak_values.getD i 0 * s.peak_decay_rate) := by
  have hg : ¬ new_values.length ≠ s.smoothed_values.length := by
    rw [hlen]
    exact fun h => h rfl
  have hsm : (List.zipWith
      (fun nv ov => s.smoothing_factor * nv + (1 - s.smoothing_factor) * ov)
      new_values s.smoothed_values).getD i 0
      = s.smoothing_factor * new_values.getD i 0
        + (1 - s.smoothing_factor) * s.smoothed_values.getD i 0 :=
    getD_zipWith _ _ _ i 0 0 0 hi (by omega)
  have hzl : i < (List.zipWith
      (fun nv ov => s.smoothing_factor * nv + (1 - s.smoothing_factor) * ov)
      new_values s.smoothed_values).length := by
    rw [List.length_zipWith]
    omega
  simp only [SpectrumSmoother.smooth, if_neg hg]
  refine ⟨hsm, ?_⟩
  rw [getD_zipWith _ _ _ i 0 0 0 hzl (by omega), hsm]

theorem smooth_update_witness :
    ((SpectrumSmoother.new 1 (0.5 : ℚ)).smooth [4]).1.smoothed_values.getD 0 0
      = (SpectrumSmoother.new 1 (0.5 : ℚ)).smoothing_factor
          * ([4] : List ℚ).getD 0 0
        + (1 - (SpectrumSmoother.new 1 (0.5 : ℚ)).smoothing_factor)
          * (SpectrumSmoother.new 1 (0.5 : ℚ)).smoothed_values.getD 0 0 ∧
    ((SpectrumSmoother.new 1 (0.5 : ℚ)).smooth [4]).1.peak_values.getD 0 0
      = (if (SpectrumSmoother.new 1 (0.5 : ℚ)).smoothing_factor
              * ([4] : List ℚ).getD 0 0
            + (1 - (SpectrumSmoother.new 1 (0.5 : ℚ)).smoothing_factor)
              * (SpectrumSmoother.new 1 (0.5 : ℚ)).smoothed_values.getD 0 0
            > (SpectrumSmoother.new 1 (0.5 : ℚ)).peak_values.getD 0 0
         then (SpectrumSmoother.new 1 (0.5 : ℚ)).smoothing_factor
              * ([4] : List ℚ).getD 0 0
            + (1 - (SpectrumSmoother.new 1 (0.5 : ℚ)).smoothing_factor)
              * (SpectrumSmoother.new 1 (0.5 : ℚ)).smoothed_values.getD 0 0
         else (SpectrumSmoother.new 1 (0.5 : ℚ)).peak_values.getD 0 0
              * (SpectrumSmoother.new 1 (0.5 : ℚ)).peak_decay_rate) :=
  smooth_update (SpectrumSmoother.new 1 (0.5 : ℚ)) [4] (by decide) (by decide)
    0 (by decide)

/-- **C6 (counterexample).** Starting from `SpectrumSmoother::new(1, 1.0)`
and calling `smooth([5.0])` twice: the second call computes the new
smoothed value `1*5 + 0*5 = 5` with previous peak `5`, so the spec's
non-strict rule (`specPeakUpdate`) would hold the peak at `5`, but the
code's strict `>` decays it to `5 * 0.95 = 4.75`. -/
theorem smooth_peak_counterexample :
    (((SpectrumSmoother.new 1 (1 : ℚ)).smooth [5]).1.smoothed_values = [5] ∧
     ((SpectrumSmoother.new 1 (1 : ℚ)).smooth [5]).1.peak_values = [5] ∧
     ((((SpectrumSmoother.new 1 (1 : ℚ)).smooth [5]).1).smooth
        [5]).1.smoothed_values = [5]) ∧
    ((((SpectrumSmoother.new 1 (1 : ℚ)).smooth [5]).1).smooth [5]).1.peak_values
      ≠ [specPeakUpdate (0.95 : ℚ) 5 5] := by
  have h1 : (SpectrumSmoother.new 1 (1 : ℚ)).smooth [5]
      = (⟨[5], [5], 0.95, 1⟩, [5]) := by
    simp [SpectrumSmoother.smooth, SpectrumSmoother.new]
  have h2 : (SpectrumSmoother.mk [5] [5] (0.95 : ℚ) 1).smooth [5]
      = (⟨[5], [5 * 0.95], 0.95, 1⟩, [5]) := by
    simp [SpectrumSmoother.smooth]
  have hspec : specPeakUpdate (0.95 : ℚ) 5 5 = 5 := by
    simp [specPeakUpdate]
  rw [h1, hspec]
  refine ⟨⟨rfl, rfl, ?_⟩, ?_⟩
  · rw [h2]
  · rw [h2]
    intro h
    have := List.head_eq_of_cons_eq h
    norm_num at this

/-- The band list constructed at band count 1, FFT size 2048, sample
rate 44100: `freq_start = 20`, `freq_end = 20000`,
`start_bin = ⌊20·2048/44100⌋ = 0`,
`end_bin = min(⌈20000·2048/44100⌉, 1025) = 929`. -/
theorem bands_one : calculate_logarithmic_bands 1 20 20000 2048 44100
    = [⟨0, 929, 10010⟩] := by
  unfold calculate_logarithmic_bands
  simp only [List.range_succ, List.range_zero, List.nil_append,
    List.map_cons, List.map_nil]
  have h1 : ⌈(409600 : ℝ) / 441⌉₊ = 929 := by
    rw [Nat.ceil_eq_iff (by norm_num)]
    norm_num
  have h2 : ⌊(2048 : ℝ) / 2205⌋₊ = 0 := Nat.floor_eq_zero.mpr (by norm_num)
  norm_num [Real.rpow_natCast, h1, h2]

/-- **C2 (counterexample).** At band count 1, FFT size 2048, sample rate
44100 the constructed band list is `[⟨0, 929, 10010⟩]`: bin 1000 of the
range `[0, 1024]` lies in no band, so the claimed conjunction
(contiguity ∧ coverage of `[0, N/2]` ∧ positive width) is false. -/
theorem bands_claim_counterexample :
    ¬ (bandsContiguous (calculate_logarithmic_bands 1 20 20000 2048 44100) ∧
       bandsCover (calculate_logarithmic_bands 1 20 20000 2048 44100)
         (2048 / 2) ∧
       ∀ b ∈ calculate_logarithmic_bands 1 20 20000 2048 44100,
         b.start_bin < b.end_bin) := by
  rw [bands_one]
  rintro ⟨-, hcov, -⟩
  obtain ⟨b, hb, -, hlt⟩ := hcov 1000 (by norm_num)
  rw [List.mem_singleton] at hb
  subst hb
  have h : (1000 : ℕ) < 929 := hlt
  omega

/-- **C2 (amended).** For every band count, FFT size and sample rate,
every band produced by `calculate_logarithmic_bands` satisfies
`end_bin > start_bin`, `start_bin ≤ N/2`, and `end_bin ≤ N/2 + 1`; the
bands are however not in general contiguous and need not cover
`[0, N/2]`. -/
theorem bands_well_formed (num_bands : ℕ) (f_min f_max : ℝ)
    (fft_size : ℕ) (sample_rate : ℝ) (_hB : 0 < num_bands) :
    ∀ b ∈ calculate_logarithmic_bands num_bands f_min f_max fft_size
        sample_rate,
      b.start_bin < b.end_bin ∧ b.start_bin ≤ fft_size / 2 ∧
      b.end_bin ≤ fft_size / 2 + 1 := by
  intro b hb
  unfold calculate_logarithmic_bands at hb
  simp only [List.mem_map, List.mem_range] at hb
  obtain ⟨i, hi, rfl⟩ := hb
  refine ⟨?_, ?_, ?_⟩ <;> simp only [] <;> omega

theorem bands_well_formed_witness :
    (FrequencyBand.mk 0 929 10010).start_bin
        < (FrequencyBand.mk 0 929 10010).end_bin ∧
    (FrequencyBand.mk 0 929 10010).start_bin ≤ 2048 / 2 ∧
    (FrequencyBand.mk 0 929 10010).end_bin ≤ 2048 / 2 + 1 :=
  bands_well_formed 1 20 20000 2048 44100 (by omega) _
    (by rw [bands_one]; exact List.mem_singleton.mpr rfl)

/-- The `i`-th entry of `compute_magnitudes` is the dB conversion of the
`i`-th complex bin. -/
theorem magnitudes_entry (buf : List (ℝ × ℝ)) (i : ℕ)
    (hi : i < FFT_SIZE / 2 + 1) :
    (compute_magnitudes FFT_SIZE buf).getD i 0
      = 20 * Real.logb 10
          (Real.sqrt ((buf.getD i (0, 0)).1 * (buf.getD i (0, 0)).1
            + (buf.getD i (0, 0)).2 * (buf.getD i (0, 0)).2) + 1e-10) := by
  unfold compute_magnitudes
  rw [getD_map_range _ _ _ _ hi]

theorem logb_epsilon : Real.logb 10 (1e-10 : ℝ) = -10 := by
  have h : (1e-10 : ℝ) = ((10 : ℝ) ^ (10 : ℕ))⁻¹ := by norm_num
  rw [h, Real.logb_inv, Real.logb_pow, Real.logb_self_eq_one (by norm_num)]
  norm_num

theorem logb_one_plus_epsilon :
    0 ≤ Real.logb 10 (1 + 1e-10 : ℝ) ∧
    Real.logb 10 (1 + 1e-10 : ℝ) ≤ 1e-10 := by
  constructor
  · exact Real.logb_nonneg (by norm_num) (by norm_num)
  · have hlog10 : (1 : ℝ) ≤ Real.log 10 := by
      rw [Real.le_log_iff_exp_le (by norm_num)]
      exact le_trans (le_of_lt Real.exp_one_lt_d9) (by norm_num)
    have hup : Real.log (1 + 1e-10 : ℝ) ≤ 1e-10 := by
      have := Real.log_le_sub_one_of_pos (x := (1 + 1e-10 : ℝ)) (by norm_num)
      linarith
    have hnn : 0 ≤ Real.log (1 + 1e-10 : ℝ) := Real.log_nonneg (by norm_num)
    calc Real.logb 10 (1 + 1e-10 : ℝ)
        = Real.log (1 + 1e-10) / Real.log 10 := rfl
      _ ≤ Real.log (1 + 1e-10) := div_le_self hnn hlog10
      _ ≤ 1e-10 := hup

/-- A zero complex bin yields exactly `-200` dB. -/
theorem magnitudes_zero_bin (buf : List (ℝ × ℝ)) (i : ℕ)
    (hi : i < FFT_SIZE / 2 + 1) (hb : buf.getD i (0, 0) = (0, 0)) :
    (compute_magnitudes FFT_SIZE buf).getD i 0 = -200 := by
  rw [magnitudes_entry buf i hi, hb]
  show 20 * Real.logb 10
      (Real.sqrt ((0 : ℝ) * 0 + (0 : ℝ) * 0) + 1e-10) = -200
  rw [show ((0 : ℝ) * 0 + (0 : ℝ) * 0) = 0 by norm_num, Real.sqrt_zero,
    zero_add, logb_epsilon]
  norm_num

/-- **C3.** `compute_magnitudes` returns `N/2 + 1 = 1025` entries (bins
0 through Nyquist, `N = 2048`); entry `i` is
`20*log10(sqrt(re² + im²) + 1e-10)` of the `i`-th FFT output; a bin of
magnitude 0 maps to `-200` dB; a bin of magnitude 1 maps to a dB value
in `[0, 1/1000)` (≈ 0); and at silence (all bins zero) every entry is
the real number `-200` — no entry is non-finite. -/
theorem compute_magnitudes_spec (buf : List (ℝ × ℝ)) :
    (compute_magnitudes FFT_SIZE buf).length = FFT_SIZE / 2 + 1 ∧
    (∀ i, i < FFT_SIZE / 2 + 1 →
      (compute_magnitudes FFT_SIZE buf).getD i 0
        = 20 * Real.logb 10
            (Real.sqrt ((buf.getD i (0, 0)).1 * (buf.getD i (0, 0)).1
              + (buf.getD i (0, 0)).2 * (buf.getD i (0, 0)).2) + 1e-10)) ∧
    (∀ i, i < FFT_SIZE / 2 + 1 → buf.getD i (0, 0) = (0, 0) →
      (compute_magnitudes FFT_SIZE buf).getD i 0 = -200) ∧
    (∀ i, i < FFT_SIZE / 2 + 1 →
      Real.sqrt ((buf.getD i (0, 0)).1 * (buf.getD i (0, 0)).1
        + (buf.getD i (0, 0)).2 * (buf.getD i (0, 0)).2) = 1 →
      0 ≤ (compute_magnitudes FFT_SIZE buf).getD i 0 ∧
      (compute_magnitudes FFT_SIZE buf).getD i 0 < 1 / 1000) ∧
    (∀ i, i < FFT_SIZE / 2 + 1 →
      (compute_magnitudes FFT_SIZE
        (List.replicate FFT_SIZE ((0 : ℝ), (0 : ℝ)))).getD i 0 = -200) := by
  refine ⟨?_, magnitudes_entry buf, magnitudes_zero_bin buf, ?_, ?_⟩
  · unfold compute_magnitudes
    rw [List.length_map, List.length_range]
  · intro i hi hs
    rw [magnitudes_entry buf i hi, hs]
    constructor
    · exact mul_nonneg (by norm_num) logb_one_plus_epsilon.1
    · have h := logb_one_plus_epsilon.2
      linarith
  · intro i hi
    apply magnitudes_zero_bin _ i hi
    rw [List.getD_eq_getElem?_getD, List.getElem?_replicate, if_pos ?_]
    · rfl
    · have hN : FFT_SIZE = 2048 := rfl
      omega

theorem compute_magnitudes_spec_witness :
    (compute_magnitudes FFT_SIZE
      (List.replicate FFT_SIZE ((0 : ℝ), (0 : ℝ)))).getD 0 0 = -200 :=
  (compute_magnitudes_spec []).2.2.2.2 0 (by omega)

/-- Binning a constant silence spectrum (1025 bins at `-200` dB) with
the single-band binner yields `[-200]`. -/
theorem bin_spectrum_silence :
    (FrequencyBinner.new 1 2048 44100).bin_spectrum
      (List.replicate 1025 ((-200 : ℝ))) = [-200] := by
  have hb : (FrequencyBinner.new 1 2048 44100).bands = [⟨0, 929, 10010⟩] :=
    bands_one
  rw [FrequencyBinner.bin_spectrum, hb, List.map_singleton]
  have hband : binBand (List.replicate 1025 ((-200 : ℝ))) ⟨0, 929, 10010⟩
      = -200 := by
    unfold binBand
    have hfil : (List.range' (0 : ℕ) (929 - 0)).filter
        (fun bin_idx =>
          bin_idx < (List.replicate 1025 ((-200 : ℝ))).length)
        = List.range' 0 929 := by
      rw [List.length_replicate, show (929 - 0 : ℕ) = 929 from rfl,
        List.filter_eq_self]
      intro a ha
      rw [List.mem_range'_1] at ha
      simp only [decide_eq_true_eq]
      omega
    simp only [hfil]
    have hmap : (List.range' 0 929).map
        (fun bin_idx => (List.replicate 1025 ((-200 : ℝ))).getD bin_idx 0)
        = List.replicate 929 (-200) := by
      rw [List.map_congr_left (g := fun _ => (-200 : ℝ))]
      · rw [List.map_const', List.length_range']
      · intro a ha
        rw [List.mem_range'_1] at ha
        rw [List.getD_eq_getElem?_getD, List.getElem?_replicate,
          if_pos (by omega)]
        rfl
    rw [hmap, List.sum_replicate, List.length_range',
      if_pos (by norm_num), nsmul_eq_mul]
    norm_num
  rw [hband]

/-- **C1 (counterexample).** On a tick whose analyzer result is the
silence spectrum (1025 bins at `-200` dB), with the one-band binner and
a freshly initialized smoother (`α = 0.7`, spec default): the published
bands are the raw binned bands `[-200]`, while the spec's pipeline
(`spec_tick`, Analyzer → Binner → Smoother → Publisher) would publish
the smoothed bands `[0.7·(-200) + 0.3·0] = [-140]`. -/
theorem run_tick_not_smoothed :
    (run_tick (K := ℝ) (FrequencyBinner.new 1 2048 44100)
        (SpectrumData.new 1 0) (some (List.replicate 1025 (-200))) 1).bands
      ≠ (spec_tick (FrequencyBinner.new 1 2048 44100)
          (SpectrumSmoother.new 1 0.7) (SpectrumData.new 1 0)
          (some (List.replicate 1025 (-200))) 1).1.bands := by
  have hsm : (SpectrumSmoother.new 1 (0.7 : ℝ)).smooth [-200]
      = (⟨[-140], [0], 0.95, 0.7⟩, [-140]) := by
    simp [SpectrumSmoother.smooth, SpectrumSmoother.new]
    norm_num
  simp only [run_tick, spec_tick, bin_spectrum_silence, hsm]
  intro h
  have := List.head_eq_of_cons_eq h
  norm_num at this

/-- **C1 (amended).** On every scheduler tick in which the analyzer
produces a result, the published snapshot holds the raw
`FrequencyBinner` output of that result with the current timestamp; the
`TemporalSmoother` is not part of the publishing path. -/
theorem run_tick_publishes_binned {K : Type} [LinearOrderedField K]
    (binner : FrequencyBinner) (spectrum : SpectrumData K)
    (fft_magnitudes : List K) (now : ℕ) :
    run_tick binner spectrum (some fft_magnitudes) now
      = { bands := binner.bin_spectrum fft_magnitudes, timestamp := now } :=
  rfl

end MusicViz
